import Mathlib

/-!
Verification of the LAIK 1-d vector layouts and the block partitioner.

Shallow embedding of:
* `src/layout_sparse_vector.c` — sparse 1-d layout (`offset_vector`,
  `section_vector`, `reuse_vector`, `calculate_mapping`);
* `src/layout_compact_vector.c` — dense 1-d layout (`section_vector`,
  `offset_vector`, `reuse_vector`, generic `pack_vector`/`unpack_vector`);
* `src/partitioner.c` — `runBlockPartitioner`.

Machine integers (`int64_t`/`uint64_t`) are modelled as `ℤ`/`ℕ`; the values
involved are far from the overflow boundary in all statements below.
C `double` arithmetic in the block partitioner is modelled as exact rational
arithmetic (`ℚ`).  A `laik_panic`/failed-assert path is modelled as `none` of
an `Option` result.
-/

/-- `Laik_Interval_Vector`: one half-open interval `[ivFrom, ivTo)`. -/
structure Laik_Interval_Vector where
  ivFrom : ℤ
  ivTo : ℤ
deriving DecidableEq, Repr

/-- `Laik_Map_Vector`: the global-to-local interval map of the sparse layout.
`size` in the C struct is `intervals.length`. -/
structure Laik_Map_Vector where
  intervals : List Laik_Interval_Vector
  lower_bound : ℤ
  upper_bound : ℤ
deriving DecidableEq, Repr

/-- `Laik_Layout_Vector` of `layout_sparse_vector.c`.  `count` is the header
field `h.count`; the debug `id` field is omitted. -/
structure Laik_Layout_Vector where
  count : ℤ
  localLength : ℤ
  numberOfExternalValues : ℕ
  currentExternalVallue : ℕ
  globalToLocalMap : Laik_Map_Vector
  allocatedRangeCount : ℕ
deriving DecidableEq, Repr

/-- The interval-scanning loop of `offset_vector`
(`layout_sparse_vector.c:124-139`): walk the intervals accumulating the sizes
of the intervals before the hit; `some off` corresponds to
`wasInLocalRange = true`, `none` to falling through (index not locally
owned). -/
def scanIntervals (g : ℤ) : List Laik_Interval_Vector → ℤ → Option ℤ
  | [], _ => none
  | iv :: rest, acc =>
    if g ≥ iv.ivFrom ∧ g < iv.ivTo then some (acc + (g - iv.ivFrom))
    else if g < iv.ivFrom then none
    else scanIntervals g rest (acc + (iv.ivTo - iv.ivFrom))

/-- `offset_vector` of `layout_sparse_vector.c:111-162`.  Returns the buffer
offset together with the updated layout (the external cursor may advance).
`none` models the `laik_panic` when a non-owned index is queried on a layout
with no external slots. -/
def offset_vector (lv : Laik_Layout_Vector) (g : ℤ) :
    Option (ℤ × Laik_Layout_Vector) :=
  match scanIntervals g lv.globalToLocalMap.intervals 0 with
  | some off => some (off, lv)
  | none =>
    if lv.numberOfExternalValues = 0 then
      none
    else
      let c : ℕ :=
        if lv.currentExternalVallue = lv.numberOfExternalValues then 0
        else lv.currentExternalVallue
      some (lv.localLength + (c : ℤ), { lv with currentExternalVallue := c + 1 })

/-- `section_vector` of `layout_sparse_vector.c:88-99`: an index is reported
contained (section `0`) iff it lies in `[lower_bound, upper_bound]`, both
bounds inclusive. -/
def section_vector (lv : Laik_Layout_Vector) (g : ℤ) : ℤ :=
  if g ≤ lv.globalToLocalMap.upper_bound ∧ g ≥ lv.globalToLocalMap.lower_bound
  then 0 else -1

/-- `reuse_vector` of `layout_sparse_vector.c:183-234`.  Returns the C
function's boolean result together with the new layout as mutated by the
call. -/
def reuse_vector (lnew lold : Laik_Layout_Vector) :
    Bool × Laik_Layout_Vector :=
  let new_totalSize_fits := lnew.allocatedRangeCount ≤ lold.allocatedRangeCount
  let vector_size_changed := lnew.localLength ≠ lold.localLength
  if ¬new_totalSize_fits ∨ vector_size_changed then
    (false,
      if ¬vector_size_changed then
        { lnew with globalToLocalMap := lold.globalToLocalMap }
      else lnew)
  else
    (true,
      { (if lnew.count ≠ lnew.localLength then
          { lnew with globalToLocalMap := lold.globalToLocalMap }
        else lnew) with allocatedRangeCount := lold.allocatedRangeCount })

/-- The `while`-loop body of `calculate_mapping`
(`layout_sparse_vector.c:451-491`), as a recursion over the remaining ranges
of the worker's slice.  `startFrom` is `startRangeOfInterval->from`, `prev`
the range at the current position `o`.  Emits the initialised intervals in
order. -/
def coalesceLoop (startFrom : ℤ) (prev : Laik_Interval_Vector) :
    List Laik_Interval_Vector → List Laik_Interval_Vector
  | [] => []
  | cur :: rest =>
    if rest = [] then
      if prev.ivTo = cur.ivFrom then
        [⟨startFrom, cur.ivTo⟩]
      else
        [⟨startFrom, prev.ivTo⟩, ⟨cur.ivFrom, cur.ivTo⟩]
    else
      if prev.ivTo = cur.ivFrom then
        coalesceLoop startFrom cur rest
      else
        ⟨startFrom, prev.ivTo⟩ :: coalesceLoop cur.ivFrom cur rest

/-- `calculate_mapping` of `layout_sparse_vector.c:426-499`, for the slice of
ranges owned by `myid` (all with `mapNo = 0`, as the sparse layout supports a
single mapping).  Returns the initialised intervals, the `lower_bound`, and
the `upper_bound`; `upper_bound` is `none` when the C code would read the
uninitialised `current_range` pointer (slice of fewer than two ranges, where
the inner `while` never runs).  An empty slice (the outer `for` body never
runs) is `none`. -/
def calculate_mapping (rs : List Laik_Interval_Vector) :
    Option (List Laik_Interval_Vector × ℤ × Option ℤ) :=
  match rs with
  | [] => none
  | r0 :: rest =>
    some (coalesceLoop r0.ivFrom r0 rest, r0.ivFrom,
      (rest.getLast?).map (fun r => r.ivTo))

/-- Well-formed interval list: each interval is non-degenerate and the list is
sorted with no overlap (`ivTo` of one at most `ivFrom` of the next). -/
def intervalsWF (ivs : List Laik_Interval_Vector) : Prop :=
  (∀ iv ∈ ivs, iv.ivFrom ≤ iv.ivTo) ∧
  ivs.Chain' (fun a b => a.ivTo ≤ b.ivFrom)

/-- A kernel-reducible decision procedure for the sortedness chain. -/
instance instDecSortedChain :
    ∀ ivs : List Laik_Interval_Vector,
      Decidable (List.Chain'
        (fun a b : Laik_Interval_Vector => a.ivTo ≤ b.ivFrom) ivs)
  | [] => isTrue (by simp)
  | [_] => isTrue (by simp)
  | a :: b :: rest =>
    match instDecSortedChain (b :: rest) with
    | isTrue h =>
      if hab : a.ivTo ≤ b.ivFrom then
        isTrue (List.chain'_cons.mpr ⟨hab, h⟩)
      else
        isFalse (fun hc => hab (List.chain'_cons.mp hc).1)
    | isFalse h => isFalse (fun hc => h (List.chain'_cons.mp hc).2)

instance (ivs : List Laik_Interval_Vector) : Decidable (intervalsWF ivs) :=
  inferInstanceAs (Decidable ((∀ iv ∈ ivs, iv.ivFrom ≤ iv.ivTo) ∧
    ivs.Chain' (fun a b : Laik_Interval_Vector => a.ivTo ≤ b.ivFrom)))

/-- Sum of the sizes of the intervals strictly before position `j`. -/
def sumBefore (ivs : List Laik_Interval_Vector) (j : ℕ) : ℤ :=
  ((ivs.take j).map (fun iv => iv.ivTo - iv.ivFrom)).sum

/-- The worked example of the spec: intervals `[[0,4), [5,7)]`,
`local_length = 6`, `E = 2`, cursor `0`. -/
def lvExample : Laik_Layout_Vector :=
  { count := 8
    localLength := 6
    numberOfExternalValues := 2
    currentExternalVallue := 0
    globalToLocalMap :=
      { intervals := [⟨0, 4⟩, ⟨5, 7⟩], lower_bound := 0, upper_bound := 7 }
    allocatedRangeCount := 8 }

example : (offset_vector lvExample 3).map Prod.fst = some 3 := by decide
example : (offset_vector lvExample 6).map Prod.fst = some 5 := by decide
example : (offset_vector lvExample 4).map Prod.fst = some 6 := by decide
example :
    calculate_mapping [⟨0, 2⟩, ⟨2, 4⟩, ⟨5, 7⟩] =
      some ([⟨0, 4⟩, ⟨5, 7⟩], 0, some 7) := by decide
example : calculate_mapping [⟨0, 2⟩] = some ([], 0, none) := by decide

/-- `Laik_Layout_Vector` of `layout_compact_vector.c` (dense layout).
`count` is the header field `h.count`; `localLength` the layout's own element
count (per the source comment it "equals count in `Laik_Layout h`" at
creation). -/
structure Dense_Layout_Vector where
  count : ℤ
  localLength : ℤ
deriving DecidableEq, Repr

/-- `section_vector` of `layout_compact_vector.c:63-75`: section `0` for any
non-negative index; the upper bound is not checked (`TODO` in the source). -/
def dense_section_vector (_lv : Dense_Layout_Vector) (g : ℤ) : ℤ :=
  if g ≥ 0 then 0 else -1

/-- `offset_vector` of `layout_compact_vector.c:87-100`: the offset is the
index itself; only `off ≥ 0` is asserted (`none` models the failed assert). -/
def dense_offset_vector (_lv : Dense_Layout_Vector) (g : ℤ) : Option ℤ :=
  if g ≥ 0 then some g else none

/-- `reuse_vector` of `layout_compact_vector.c:122-149`: reuse succeeds iff
the new `localLength` fits into the old one, and then the new layout inherits
the old header `count` (`l->count = old->count`). -/
def dense_reuse_vector (lnew lold : Dense_Layout_Vector) :
    Bool × Dense_Layout_Vector :=
  if ¬(lnew.localLength ≤ lold.localLength) then (false, lnew)
  else (true, { lnew with count := lold.count })

/-- The sequence of buffer offsets produced by walking `n` consecutive 1-d
indices starting at `g` through a layout's (possibly stateful) `offset`
function, as `pack_vector`/`unpack_vector` do (`next_idx` advances `i[0]` by
one). -/
def offSeq {σ : Type} (step : σ → ℤ → ℤ × σ) : σ → ℤ → ℕ → List ℤ
  | _, _, 0 => []
  | s, g, n + 1 => (step s g).1 :: offSeq step (step s g).2 (g + 1) n

/-- `pack_vector` (`layout_compact_vector.c:201-259`), element granularity:
copy the elements of the range `[a, a+n)` out of the source mapping `src`
(read at the layout offset of each index) into a buffer of capacity `cap`
elements, stopping when the buffer is full or the range is exhausted. -/
def pack_vector_model {σ α : Type} (step : σ → ℤ → ℤ × σ) (src : ℤ → α)
    (s : σ) (a : ℤ) (n cap : ℕ) : List α :=
  ((offSeq step s a n).take cap).map src

/-- `unpack_vector` (`layout_compact_vector.c:264-321`), element granularity:
write the buffered elements into the destination mapping at the layout offset
of each successive index of the range starting at `a`. -/
def unpack_vector_model {σ α : Type} (step : σ → ℤ → ℤ × σ) :
    σ → ℤ → List α → (ℤ → α) → (ℤ → α)
  | _, _, [], dst => dst
  | s, g, v :: vs, dst =>
    unpack_vector_model step (step s g).2 (g + 1) vs
      (fun x => if x = (step s g).1 then v else dst x)

/-- The dense layout's offset function as a (stateless) step:
`offset(_, 0, idx) = idx.i0`. -/
def denseStep : Unit → ℤ → ℤ × Unit := fun _ g => (g, ())

/-- The sparse layout's offset function as a step (the panic branch, never
taken when `numberOfExternalValues > 0`, is defaulted to offset `0`). -/
def sparseStep (lv : Laik_Layout_Vector) (g : ℤ) : ℤ × Laik_Layout_Vector :=
  match offset_vector lv g with
  | some p => p
  | none => (0, lv)

/-- Loop state of `runBlockPartitioner` (`partitioner.c:143-235`): running
weight `w`, current `task` and `cycle`, the open slice's `from`, and the
slices appended so far (`laik_append_slice`), each as
`(task, from, to)`. -/
structure BlockState where
  w : ℚ
  task : ℕ
  cycle : ℕ
  sliceFrom : ℤ
  acc : List (ℕ × ℤ × ℤ)
deriving DecidableEq, Repr

/-- `taskW`, the task correction factor:
`getTaskW(t) · count / totalTW`, or `1.0` without a task weight function. -/
def taskFactor (getTaskW : Option (ℕ → ℚ)) (count : ℕ) (totalTW : ℚ)
    (t : ℕ) : ℚ :=
  match getTaskW with
  | some f => f t * (count : ℚ) / totalTW
  | none => 1

/-- The inner `while (w >= perPart * taskW)` loop of `runBlockPartitioner` at
index `i`.  The returned flag is `true` when the loop hit the
`(task, cycle) = (last, last)` `break` (after which the outer loop also
breaks).  The fuel passed by `runBlockPartitioner` below strictly exceeds the
`count · cycles` bound on the loop's iterations. -/
def blockWhile (perPart : ℚ) (getTaskW : Option (ℕ → ℚ))
    (count cycles : ℕ) (totalTW : ℚ) (i : ℕ) :
    ℕ → BlockState → BlockState × Bool
  | 0, st => (st, false)
  | fuel + 1, st =>
    if perPart * taskFactor getTaskW count totalTW st.task ≤ st.w then
      let w' := st.w - perPart * taskFactor getTaskW count totalTW st.task
      if st.task + 1 = count ∧ st.cycle + 1 = cycles then
        ({ st with w := w' }, true)
      else
        let acc' :=
          if st.sliceFrom < (i : ℤ) then
            st.acc ++ [(st.task, st.sliceFrom, (i : ℤ))]
          else st.acc
        let t' := st.task + 1
        blockWhile perPart getTaskW count cycles totalTW i fuel
          { w := w'
            task := if t' = count then 0 else t'
            cycle := if t' = count then st.cycle + 1 else st.cycle
            sliceFrom := (i : ℤ)
            acc := acc' }
    else (st, false)

/-- Per-index weight: `getIdxW(i)`, or `1.0` without a weight function. -/
def idxWeight (getIdxW : Option (ℕ → ℚ)) (i : ℕ) : ℚ :=
  match getIdxW with
  | some f => f i
  | none => 1

/-- The outer `for` loop of `runBlockPartitioner` over the remaining indices,
with its two `break`s (the flag from the inner loop, and the
`(task, cycle) = (last, last)` check after it). -/
def blockFor (perPart : ℚ) (getIdxW getTaskW : Option (ℕ → ℚ))
    (count cycles : ℕ) (totalTW : ℚ) :
    List ℕ → BlockState → BlockState
  | [], st => st
  | i :: rest, st =>
    let st1 := { st with w := st.w + idxWeight getIdxW i }
    let r := blockWhile perPart getTaskW count cycles totalTW i
      (count * cycles + 2) st1
    if r.2 then r.1
    else if r.1.task + 1 = count ∧ r.1.cycle + 1 = cycles then r.1
    else blockFor perPart getIdxW getTaskW count cycles totalTW rest r.1

/-- `runBlockPartitioner` (`partitioner.c:143-235`) on a 1-d space of size
`size` and a group of `count` tasks: total weights, `perPart`, the main loop
starting from `w = -0.5`, and the final tail slice `[slice_from, size)`
appended to the current task.  `double` arithmetic is modelled exactly in
`ℚ`. -/
def runBlockPartitioner (size count cycles : ℕ)
    (getIdxW getTaskW : Option (ℕ → ℚ)) : List (ℕ × ℤ × ℤ) :=
  let totalW : ℚ :=
    match getIdxW with
    | some f => ((List.range size).map f).sum
    | none => (size : ℚ)
  let totalTW : ℚ :=
    match getTaskW with
    | some f => ((List.range count).map f).sum
    | none => (count : ℚ)
  let perPart := totalW / (count : ℚ) / (cycles : ℚ)
  let st0 : BlockState :=
    { w := -(1 / 2 : ℚ), task := 0, cycle := 0, sliceFrom := 0, acc := [] }
  let stF := blockFor perPart getIdxW getTaskW count cycles totalTW
    (List.range size) st0
  stF.acc ++ [(stF.task, stF.sliceFrom, (size : ℤ))]

/-- The index-weight function `[1,1,1,5]` of the spec's block-partitioner
scenario. -/
def weights1115 : ℕ → ℚ := fun i => if i = 3 then 5 else 1

example :
    runBlockPartitioner 10 4 1 none none =
      [(0, 0, 2), (1, 2, 5), (2, 5, 7), (3, 7, 10)] := by
  norm_num [runBlockPartitioner, blockFor, blockWhile, taskFactor, idxWeight,
    List.range_succ]
example :
    runBlockPartitioner 4 2 1 (some weights1115) none =
      [(0, 0, 3), (1, 3, 4)] := by
  norm_num [runBlockPartitioner, blockFor, blockWhile, taskFactor, idxWeight,
    weights1115, List.range_succ]

/-- Total size of an interval list (`local_length` when the layout is
consistent with its map). -/
def totalSize (ivs : List Laik_Interval_Vector) : ℤ :=
  (ivs.map (fun iv => iv.ivTo - iv.ivFrom)).sum

/-- Closed-form boundary of the block partitioner with unit weights and one
cycle: the first index `i` with `i + 1/2 ≥ t · size/count`. -/
def blockBnd (size count t : ℕ) : ℤ :=
  ⌈(t : ℚ) * ((size : ℚ) / (count : ℚ)) - 1 / 2⌉

/-- The first `t` closed-form slices of the unit-weight block partitioner. -/
def blockInit (size count t : ℕ) : List (ℕ × ℤ × ℤ) :=
  (List.range t).map
    (fun j => (j, blockBnd size count j, blockBnd size count (j + 1)))

/-!  ## Theorems  -/

theorem intervalsWF_tail {iv : Laik_Interval_Vector}
    {ivs : List Laik_Interval_Vector} (h : intervalsWF (iv :: ivs)) :
    intervalsWF ivs :=
  ⟨fun x hx => h.1 x (List.mem_cons_of_mem _ hx), (List.chain'_cons'.mp h.2).2⟩

theorem intervalsWF_head_le {iv : Laik_Interval_Vector}
    {ivs : List Laik_Interval_Vector} (h : intervalsWF (iv :: ivs)) :
    ∀ x ∈ ivs, iv.ivTo ≤ x.ivFrom := by
  induction ivs generalizing iv with
  | nil => intro x hx; cases hx
  | cons b rest ih =>
    intro x hx
    have hab : iv.ivTo ≤ b.ivFrom := (List.chain'_cons.mp h.2).1
    rcases List.mem_cons.mp hx with rfl | hx'
    · exact hab
    · have hbx : b.ivTo ≤ x.ivFrom := ih (intervalsWF_tail h) x hx'
      have hb : b.ivFrom ≤ b.ivTo := h.1 b (by simp)
      exact le_trans hab (le_trans hb hbx)

/-- The scan loop finds the `j`-th interval containing `g` and accumulates
exactly the sizes of the intervals before it. -/
theorem scanIntervals_found (g : ℤ) :
    ∀ (ivs : List Laik_Interval_Vector) (acc : ℤ) (j : ℕ)
      (hj : j < ivs.length), intervalsWF ivs →
      (ivs.get ⟨j, hj⟩).ivFrom ≤ g → g < (ivs.get ⟨j, hj⟩).ivTo →
      scanIntervals g ivs acc =
        some (acc + sumBefore ivs j + (g - (ivs.get ⟨j, hj⟩).ivFrom)) := by
  intro ivs
  induction ivs with
  | nil => intro acc j hj; cases hj
  | cons iv rest ih =>
    intro acc j hj hwf hlo hhi
    cases j with
    | zero =>
      simp only [List.get] at hlo hhi
      simp [scanIntervals, hlo, hhi, sumBefore, le_of_lt, ge_iff_le]
    | succ j' =>
      have hj' : j' < rest.length := Nat.lt_of_succ_lt_succ hj
      have hmem : rest.get ⟨j', hj'⟩ ∈ rest := rest.get_mem j' hj'
      have hsep : iv.ivTo ≤ (rest.get ⟨j', hj'⟩).ivFrom :=
        intervalsWF_head_le hwf _ hmem
      simp only [List.get] at hlo hhi
      have hge : iv.ivTo ≤ g := le_trans hsep hlo
      have hfromto : iv.ivFrom ≤ iv.ivTo := hwf.1 iv (by simp)
      have h1 : ¬(g ≥ iv.ivFrom ∧ g < iv.ivTo) := by
        rintro ⟨-, h⟩; exact absurd h (not_lt.mpr hge)
      have h2 : ¬(g < iv.ivFrom) := not_lt.mpr (le_trans hfromto hge)
      have hrec := ih (acc + (iv.ivTo - iv.ivFrom)) j' hj'
        (intervalsWF_tail hwf) hlo hhi
      have hget : (iv :: rest).get ⟨j' + 1, hj⟩ = rest.get ⟨j', hj'⟩ := rfl
      have hsb : sumBefore (iv :: rest) (j' + 1) =
          (iv.ivTo - iv.ivFrom) + sumBefore rest j' := by
        simp [sumBefore, List.take, List.sum_cons]
      simp only [scanIntervals, if_neg h1, if_neg h2]
      rw [hrec, hget, hsb]
      congr 1
      ring

/-- The scan loop returns `none` (`wasInLocalRange = false`) when `g` lies in
no interval. -/
theorem scanIntervals_notfound (g : ℤ) :
    ∀ (ivs : List Laik_Interval_Vector) (acc : ℤ),
      (∀ iv ∈ ivs, ¬(iv.ivFrom ≤ g ∧ g < iv.ivTo)) →
      scanIntervals g ivs acc = none := by
  intro ivs
  induction ivs with
  | nil => intro acc _; rfl
  | cons iv rest ih =>
    intro acc hnot
    have hhead : ¬(iv.ivFrom ≤ g ∧ g < iv.ivTo) := hnot iv (by simp)
    by_cases hlt : g < iv.ivFrom
    · simp [scanIntervals, hlt, hhead, ge_iff_le]
    · have h1 : ¬(g ≥ iv.ivFrom ∧ g < iv.ivTo) := by
        rintro ⟨ha, hb⟩; exact hhead ⟨ha, hb⟩
      simp only [scanIntervals, if_neg h1, if_neg hlt]
      exact ih _ (fun x hx => hnot x (List.mem_cons_of_mem _ hx))

theorem sumBefore_nonneg {ivs : List Laik_Interval_Vector}
    (hwf : intervalsWF ivs) (j : ℕ) : 0 ≤ sumBefore ivs j := by
  unfold sumBefore
  apply List.sum_nonneg
  intro x hx
  rcases List.mem_map.mp hx with ⟨iv, hiv, rfl⟩
  have : iv ∈ ivs := List.mem_of_mem_take hiv
  have := hwf.1 iv this
  omega

theorem sumBefore_succ_le_total {ivs : List Laik_Interval_Vector}
    (hwf : intervalsWF ivs) (j : ℕ) (hj : j < ivs.length) :
    sumBefore ivs j + ((ivs.get ⟨j, hj⟩).ivTo - (ivs.get ⟨j, hj⟩).ivFrom) ≤
      totalSize ivs := by
  have hmap : ∀ k, sumBefore ivs k =
      ((ivs.map (fun iv => iv.ivTo - iv.ivFrom)).take k).sum := by
    intro k; unfold sumBefore; rw [List.map_take]
  have hjm : j < (ivs.map (fun iv => iv.ivTo - iv.ivFrom)).length := by
    simpa using hj
  have hstep := List.sum_take_succ
    (ivs.map (fun iv => iv.ivTo - iv.ivFrom)) j hjm
  simp only [List.getElem_map] at hstep
  have hsplit := List.sum_take_add_sum_drop
    (ivs.map (fun iv => iv.ivTo - iv.ivFrom)) (j + 1)
  have hdrop :
      0 ≤ ((ivs.map (fun iv => iv.ivTo - iv.ivFrom)).drop (j + 1)).sum := by
    apply List.sum_nonneg
    intro x hx
    rcases List.mem_map.mp (List.mem_of_mem_drop hx) with ⟨iv, hiv, rfl⟩
    have := hwf.1 iv hiv
    omega
  have htot : totalSize ivs = (ivs.map (fun iv => iv.ivTo - iv.ivFrom)).sum :=
    rfl
  rw [hmap j, htot]
  simp only [List.get_eq_getElem]
  omega

theorem offset_vector_of_scan {lv : Laik_Layout_Vector} {g off : ℤ}
    (h : scanIntervals g lv.globalToLocalMap.intervals 0 = some off) :
    offset_vector lv g = some (off, lv) := by
  unfold offset_vector
  rw [h]

/-- C1: for a global index `g` inside the `j`-th owned interval, the sparse
`offset_vector` returns the prefix sum of the earlier interval sizes plus
`g - from_j`, a value in `[0, localLength)` (when `localLength` is the total
interval size, as the source asserts); for `g` outside every interval with
`E = numberOfExternalValues > 0` it returns `localLength` plus the external
cursor (wrapped to `0` when the cursor has reached `E`) and advances the
cursor.  In particular on intervals `[[0,4), [5,7)]`: `offset(3) = 3`,
`offset(6) = 5`, and with `E = 2` three successive non-local queries return
`6`, `7`, `6`. -/
theorem claim_C1_sparse_offset :
    (∀ (lv : Laik_Layout_Vector) (g : ℤ) (j : ℕ),
        j < lv.globalToLocalMap.intervals.length →
        intervalsWF lv.globalToLocalMap.intervals →
        lv.localLength = totalSize lv.globalToLocalMap.intervals →
        (lv.globalToLocalMap.intervals.getD j ⟨0, 0⟩).ivFrom ≤ g →
        g < (lv.globalToLocalMap.intervals.getD j ⟨0, 0⟩).ivTo →
        offset_vector lv g =
          some (sumBefore lv.globalToLocalMap.intervals j +
              (g - (lv.globalToLocalMap.intervals.getD j ⟨0, 0⟩).ivFrom), lv) ∧
        0 ≤ sumBefore lv.globalToLocalMap.intervals j +
              (g - (lv.globalToLocalMap.intervals.getD j ⟨0, 0⟩).ivFrom) ∧
        sumBefore lv.globalToLocalMap.intervals j +
              (g - (lv.globalToLocalMap.intervals.getD j ⟨0, 0⟩).ivFrom) <
            lv.localLength) ∧
    (∀ (lv : Laik_Layout_Vector) (g : ℤ),
        (∀ iv ∈ lv.globalToLocalMap.intervals,
          ¬(iv.ivFrom ≤ g ∧ g < iv.ivTo)) →
        lv.numberOfExternalValues ≠ 0 →
        offset_vector lv g =
          some (lv.localLength +
              (((if lv.currentExternalVallue = lv.numberOfExternalValues
                  then 0 else lv.currentExternalVallue) : ℕ) : ℤ),
            { lv with currentExternalVallue :=
                (if lv.currentExternalVallue = lv.numberOfExternalValues
                 then 0 else lv.currentExternalVallue) + 1 })) ∧
    offset_vector lvExample 3 = some (3, lvExample) ∧
    offset_vector lvExample 6 = some (5, lvExample) ∧
    offset_vector lvExample 4 =
      some (6, { lvExample with currentExternalVallue := 1 }) ∧
    offset_vector { lvExample with currentExternalVallue := 1 } 8 =
      some (7, { lvExample with currentExternalVallue := 2 }) ∧
    offset_vector { lvExample with currentExternalVallue := 2 } 9 =
      some (6, { lvExample with currentExternalVallue := 1 }) := by
  refine ⟨?_, ?_, by decide, by decide, by decide, by decide, by decide⟩
  · intro lv g j hj hwf hlen hlo hhi
    rw [List.getD_eq_get _ _ hj] at hlo hhi ⊢
    have hscan := scanIntervals_found g lv.globalToLocalMap.intervals 0 j hj
      hwf hlo hhi
    rw [zero_add] at hscan
    have hoff := offset_vector_of_scan hscan
    refine ⟨hoff, ?_, ?_⟩
    · have h1 := sumBefore_nonneg hwf j
      omega
    · have h2 := sumBefore_succ_le_total hwf j hj
      rw [hlen]
      omega
  · intro lv g hnot hE
    unfold offset_vector
    rw [scanIntervals_notfound g _ 0 hnot]
    simp [hE]

theorem claim_C1_sparse_offset_witness :
    ((1 < lvExample.globalToLocalMap.intervals.length ∧
      intervalsWF lvExample.globalToLocalMap.intervals ∧
      lvExample.localLength = totalSize lvExample.globalToLocalMap.intervals ∧
      (lvExample.globalToLocalMap.intervals.getD 1 ⟨0, 0⟩).ivFrom ≤ 6 ∧
      (6 : ℤ) < (lvExample.globalToLocalMap.intervals.getD 1 ⟨0, 0⟩).ivTo) ∧
      offset_vector lvExample 6 =
        some (sumBefore lvExample.globalToLocalMap.intervals 1 +
          (6 - (lvExample.globalToLocalMap.intervals.getD 1 ⟨0, 0⟩).ivFrom),
          lvExample)) ∧
    ((∀ iv ∈ lvExample.globalToLocalMap.intervals,
        ¬(iv.ivFrom ≤ (4 : ℤ) ∧ (4 : ℤ) < iv.ivTo)) ∧
      lvExample.numberOfExternalValues ≠ 0) ∧
    offset_vector lvExample 4 =
      some (lvExample.localLength +
          (((if lvExample.currentExternalVallue =
                lvExample.numberOfExternalValues
              then 0 else lvExample.currentExternalVallue) : ℕ) : ℤ),
        { lvExample with currentExternalVallue :=
            (if lvExample.currentExternalVallue =
                lvExample.numberOfExternalValues
             then 0 else lvExample.currentExternalVallue) + 1 }) :=
  ⟨⟨⟨by decide, by decide, by decide, by decide, by decide⟩,
      (claim_C1_sparse_offset.1 lvExample 6 1 (by decide) (by decide)
        (by decide) (by decide) (by decide)).1⟩,
    ⟨⟨by decide, by decide⟩,
      claim_C1_sparse_offset.2.1 lvExample 4 (by decide) (by decide)⟩⟩

/-- C8: on a sparse layout with no external slots (`E = 0`), an offset query
for a global index outside every owned interval hits the `laik_panic`
("OutOfRange") branch instead of returning a slot. -/
theorem claim_C8_out_of_range_panic :
    ∀ (lv : Laik_Layout_Vector) (g : ℤ),
      (∀ iv ∈ lv.globalToLocalMap.intervals, ¬(iv.ivFrom ≤ g ∧ g < iv.ivTo)) →
      lv.numberOfExternalValues = 0 →
      offset_vector lv g = none := by
  intro lv g hnot hE
  unfold offset_vector
  rw [scanIntervals_notfound g _ 0 hnot]
  simp [hE]

theorem claim_C8_out_of_range_panic_witness :
    ((∀ iv ∈ ({ lvExample with numberOfExternalValues := 0 } :
        Laik_Layout_Vector).globalToLocalMap.intervals,
        ¬(iv.ivFrom ≤ (4 : ℤ) ∧ (4 : ℤ) < iv.ivTo)) ∧
      ({ lvExample with numberOfExternalValues := 0 } :
        Laik_Layout_Vector).numberOfExternalValues = 0) ∧
    offset_vector { lvExample with numberOfExternalValues := 0 } 4 = none :=
  ⟨⟨by decide, by decide⟩,
    claim_C8_out_of_range_panic _ 4 (by decide) (by decide)⟩

/-- C10: the sparse `section_vector` reports section `0` exactly for
`lower_bound ≤ g ≤ upper_bound` (upper bound inclusive).  On the example map
`[[0,4), [5,7)]` with bounds `[0, 7]`, the gap index `4` and the exclusive
upper bound `7` are both classified as contained although neither lies in an
owned interval (the scan loop misses), and a subsequent offset query routes
them to the external slot `localLength + cursor`. -/
theorem claim_C10_sparse_section_bounds :
    (∀ (lv : Laik_Layout_Vector) (g : ℤ),
        section_vector lv g = 0 ↔
          lv.globalToLocalMap.lower_bound ≤ g ∧
            g ≤ lv.globalToLocalMap.upper_bound) ∧
    section_vector lvExample 4 = 0 ∧
    scanIntervals 4 lvExample.globalToLocalMap.intervals 0 = none ∧
    section_vector lvExample 7 = 0 ∧
    scanIntervals 7 lvExample.globalToLocalMap.intervals 0 = none ∧
    (offset_vector lvExample 4).map Prod.fst =
      some (lvExample.localLength + 0) ∧
    (offset_vector lvExample 7).map Prod.fst =
      some (lvExample.localLength + 0) := by
  refine ⟨?_, by decide, by decide, by decide, by decide, by decide, by decide⟩
  intro lv g
  unfold section_vector
  by_cases h : g ≤ lv.globalToLocalMap.upper_bound ∧
      g ≥ lv.globalToLocalMap.lower_bound
  · simp only [if_pos h]
    exact ⟨fun _ => ⟨h.2, h.1⟩, fun _ => trivial⟩
  · simp only [if_neg h]
    constructor
    · intro hc; exact absurd hc (by decide)
    · intro hc; exact absurd ⟨hc.2, hc.1⟩ h

theorem claim_C10_sparse_section_bounds_witness :
    section_vector lvExample 5 = 0 :=
  (claim_C10_sparse_section_bounds.1 lvExample 5).mpr (by decide)

/-- C3: the sparse `reuse_vector` succeeds iff the new
`allocatedRangeCount` fits into the old one and `localLength` is unchanged;
on success, a layout for an external partitioning (`count ≠ localLength`)
inherits the old `globalToLocalMap`; and on failure caused only by the
external/non-external switch (same `localLength`) the old interval map is
still adopted. -/
theorem claim_C3_sparse_reuse :
    ∀ lnew lold : Laik_Layout_Vector,
      ((reuse_vector lnew lold).1 = true ↔
        lnew.allocatedRangeCount ≤ lold.allocatedRangeCount ∧
          lnew.localLength = lold.localLength) ∧
      ((reuse_vector lnew lold).1 = true → lnew.count ≠ lnew.localLength →
        (reuse_vector lnew lold).2.globalToLocalMap =
          lold.globalToLocalMap) ∧
      ((reuse_vector lnew lold).1 = false →
        lnew.localLength = lold.localLength →
        (reuse_vector lnew lold).2.globalToLocalMap =
          lold.globalToLocalMap) := by
  intro lnew lold
  unfold reuse_vector
  by_cases hfit : lnew.allocatedRangeCount ≤ lold.allocatedRangeCount <;>
    by_cases hlen : lnew.localLength = lold.localLength <;>
      by_cases hext : lnew.count ≠ lnew.localLength <;>
        simp_all

theorem claim_C3_sparse_reuse_witness :
    ((reuse_vector lvExample
        { lvExample with allocatedRangeCount := 9 }).1 = true ∧
      lvExample.count ≠ lvExample.localLength) ∧
    (reuse_vector lvExample
        { lvExample with allocatedRangeCount := 9 }).2.globalToLocalMap =
      ({ lvExample with allocatedRangeCount := 9 } :
        Laik_Layout_Vector).globalToLocalMap :=
  ⟨⟨by decide, by decide⟩,
    (claim_C3_sparse_reuse lvExample
        { lvExample with allocatedRangeCount := 9 }).2.1
      (by decide) (by decide)⟩

/-- C7 counterexample: the claim "dense reuse returns true iff
`new.count ≤ old.count`" fails on the state produced by the claim's own
grow-then-shrink scenario.  After reusing a count-1000 buffer for a count-400
layout, the old layout has `count = 1000` but `localLength = 400`; the
candidate layout for count 1000 has `count = 1000 ≤ 1000`, yet
`reuse_vector` returns false (it compares `localLength`, not `count`). -/
theorem claim_C7_counterexample :
    dense_reuse_vector ⟨400, 400⟩ ⟨1000, 1000⟩ =
      (true, (⟨1000, 400⟩ : Dense_Layout_Vector)) ∧
    (dense_reuse_vector ⟨1000, 1000⟩ ⟨1000, 400⟩).1 = false ∧
    (⟨1000, 1000⟩ : Dense_Layout_Vector).count ≤
      (⟨1000, 400⟩ : Dense_Layout_Vector).count := by
  refine ⟨?_, by decide, by decide⟩
  decide

/-- C7 (amended): the dense `reuse_vector` returns true iff
`new.localLength ≤ old.localLength` (the layout's own element count, not the
possibly-inherited header `count`); on success the new layout's `count` is
set to `old.count` so the existing buffer is reused.  Consequently shrinking
from 1000 to 400 reuses the buffer, and growing back to 1000 fails reuse. -/
theorem claim_C7_dense_reuse :
    (∀ lnew lold : Dense_Layout_Vector,
        ((dense_reuse_vector lnew lold).1 = true ↔
          lnew.localLength ≤ lold.localLength) ∧
        ((dense_reuse_vector lnew lold).1 = true →
          (dense_reuse_vector lnew lold).2 =
            { lnew with count := lold.count })) ∧
    dense_reuse_vector ⟨400, 400⟩ ⟨1000, 1000⟩ =
      (true, (⟨1000, 400⟩ : Dense_Layout_Vector)) ∧
    (dense_reuse_vector ⟨1000, 1000⟩ ⟨1000, 400⟩).1 = false := by
  refine ⟨?_, by decide, by decide⟩
  intro lnew lold
  unfold dense_reuse_vector
  by_cases h : lnew.localLength ≤ lold.localLength <;> simp_all

theorem claim_C7_dense_reuse_witness :
    (dense_reuse_vector ⟨400, 400⟩ ⟨1000, 1000⟩).1 = true ∧
    (dense_reuse_vector ⟨400, 400⟩ ⟨1000, 1000⟩).2 =
      { (⟨400, 400⟩ : Dense_Layout_Vector) with
          count := (⟨1000, 1000⟩ : Dense_Layout_Vector).count } :=
  ⟨by decide,
    (claim_C7_dense_reuse.1 ⟨400, 400⟩ ⟨1000, 1000⟩).2 (by decide)⟩

/-- C2: `calculate_mapping` evaluated at the spec's example and at the
failing input.  On the three-range slice `[0,2), [2,4), [5,7)` it produces
the coalesced intervals `[[0,4), [5,7)]` with `lower_bound = 0` and
`upper_bound = 7`, as the claim states.  But on a slice with a single range
`[0,2)` (declared `map_size = 1`) the inner `while` loop never runs: zero
intervals are initialised — the source's own
`assert(chunksInitialised == map_size)` fails and `upper_bound` is read from
the uninitialised `current_range` pointer (modelled as `none`). -/
theorem claim_C2_calculate_mapping_eval :
    calculate_mapping [⟨0, 2⟩, ⟨2, 4⟩, ⟨5, 7⟩] =
      some ([⟨0, 4⟩, ⟨5, 7⟩], 0, some 7) ∧
    calculate_mapping [⟨0, 2⟩] = some ([], 0, none) ∧
    ([] : List Laik_Interval_Vector).length ≠ 1 := by
  refine ⟨by decide, by decide, by decide⟩

/-- C6: the block partitioner with index weights `[1,1,1,5]`, `N = 4`,
`k = 2`, one cycle and unit task weights emits exactly the two slices
`[0,3)` to task 0 and `[3,4)` to task 1 — the first slice ends at index 3,
where the running weight `w = 2.5 + 5 = 7.5` first reaches
`perPart = 8/2 = 4.0`.  All intermediate `double` values here are halves and
small integers, hence exactly representable; the `ℚ` model coincides with
the C arithmetic. -/
theorem claim_C6_block_weighted :
    runBlockPartitioner 4 2 1 (some weights1115) none =
      [(0, 0, 3), (1, 3, 4)] := by
  norm_num [runBlockPartitioner, blockFor, blockWhile, taskFactor, idxWeight,
    weights1115, List.range_succ]

theorem intervalsWF_first_le {ivs : List Laik_Interval_Vector}
    (hwf : intervalsWF ivs) (j : ℕ) (hj : j < ivs.length) :
    (ivs.getD 0 ⟨0, 0⟩).ivFrom ≤ (ivs.getD j ⟨0, 0⟩).ivFrom := by
  cases ivs with
  | nil => cases hj
  | cons iv rest =>
    cases j with
    | zero => exact le_refl _
    | succ j' =>
      have hj' : j' < rest.length := Nat.lt_of_succ_lt_succ hj
      have hmem : rest.get ⟨j', hj'⟩ ∈ rest := rest.get_mem j' hj'
      have h1 : iv.ivTo ≤ (rest.get ⟨j', hj'⟩).ivFrom :=
        intervalsWF_head_le hwf _ hmem
      have h2 : iv.ivFrom ≤ iv.ivTo := hwf.1 iv (by simp)
      have hD : (iv :: rest).getD (j' + 1) ⟨0, 0⟩ = rest.get ⟨j', hj'⟩ := by
        rw [show (iv :: rest).getD (j' + 1) ⟨0, 0⟩ = rest.getD j' ⟨0, 0⟩ from
          rfl]
        exact List.getD_eq_get rest _ hj'
      rw [hD]
      exact le_trans h2 h1

theorem intervalsWF_le_last {ivs : List Laik_Interval_Vector}
    (hwf : intervalsWF ivs) (j : ℕ) (hj : j < ivs.length) :
    (ivs.getD j ⟨0, 0⟩).ivTo ≤ (ivs.getLastD ⟨0, 0⟩).ivTo := by
  induction ivs generalizing j with
  | nil => cases hj
  | cons iv rest ih =>
    cases rest with
    | nil =>
      cases j with
      | zero => exact le_refl _
      | succ j' => simp at hj
    | cons b rest' =>
      have hlast : (iv :: b :: rest').getLastD ⟨0, 0⟩ =
          (b :: rest').getLastD ⟨0, 0⟩ := by
        simp [List.getLastD_cons]
      rw [hlast]
      cases j with
      | zero =>
        have h1 : iv.ivTo ≤ b.ivFrom := (List.chain'_cons.mp hwf.2).1
        have h2 : b.ivFrom ≤ b.ivTo := hwf.1 b (by simp)
        have h3 : ((b :: rest').getD 0 ⟨0, 0⟩).ivTo ≤
            ((b :: rest').getLastD ⟨0, 0⟩).ivTo :=
          ih (intervalsWF_tail hwf) 0 (by simp)
        simp only [List.getD] at h3 ⊢
        calc iv.ivTo ≤ b.ivFrom := h1
          _ ≤ b.ivTo := h2
          _ ≤ _ := by simpa using h3
      | succ j' =>
        have hj' : j' < (b :: rest').length := Nat.lt_of_succ_lt_succ hj
        have := ih (intervalsWF_tail hwf) j' hj'
        simpa using this

/-- C4 counterexample: the invariant "`section(L, g) = 0` implies
`offset(L, 0, g) ∈ [0, L.count)`" fails for the dense layout, whose
`section_vector` checks no upper bound (`TODO` in the source): on a dense
layout with `count = 4`, index `10` is reported contained (section `0`) but
its offset is `10`, outside `[0, 4)`. -/
theorem claim_C4_counterexample :
    dense_section_vector ⟨4, 4⟩ 10 = 0 ∧
    dense_offset_vector ⟨4, 4⟩ 10 = some 10 ∧
    ¬((10 : ℤ) < (⟨4, 4⟩ : Dense_Layout_Vector).count) := by
  refine ⟨by decide, by decide, by decide⟩

/-- C4 (amended): the offset stays in `[0, count)` for the indices the layout
*owns*, which callers must validate (the spec already requires validation
against the mapping's `required_range`): for the dense layout, for every
`g ∈ [0, count)` the section is `0` and the offset is `g ∈ [0, count)`; for
the sparse layout, for every `g` in an owned interval of a well-formed map
with `localLength` the total interval size and `localLength ≤ count`, the
section is `0` and the offset lies in `[0, count)` without reaching the
panic branch. -/
theorem claim_C4_offset_in_bounds :
    (∀ (lv : Dense_Layout_Vector) (g : ℤ),
        0 ≤ g → g < lv.count →
        dense_section_vector lv g = 0 ∧
        dense_offset_vector lv g = some g ∧ 0 ≤ g ∧ g < lv.count) ∧
    (∀ (lv : Laik_Layout_Vector) (g : ℤ) (j : ℕ),
        j < lv.globalToLocalMap.intervals.length →
        intervalsWF lv.globalToLocalMap.intervals →
        lv.localLength = totalSize lv.globalToLocalMap.intervals →
        lv.localLength ≤ lv.count →
        lv.globalToLocalMap.lower_bound =
          (lv.globalToLocalMap.intervals.getD 0 ⟨0, 0⟩).ivFrom →
        lv.globalToLocalMap.upper_bound =
          (lv.globalToLocalMap.intervals.getLastD ⟨0, 0⟩).ivTo →
        (lv.globalToLocalMap.intervals.getD j ⟨0, 0⟩).ivFrom ≤ g →
        g < (lv.globalToLocalMap.intervals.getD j ⟨0, 0⟩).ivTo →
        section_vector lv g = 0 ∧
        ∃ (off : ℤ) (lv' : Laik_Layout_Vector),
          offset_vector lv g = some (off, lv') ∧
            0 ≤ off ∧ off < lv.count) := by
  constructor
  · intro lv g h0 hc
    refine ⟨?_, ?_, h0, hc⟩
    · unfold dense_section_vector
      rw [if_pos (by exact h0)]
    · unfold dense_offset_vector
      rw [if_pos (by exact h0)]
  · intro lv g j hj hwf hlen hcount hlow hup hlo hhi
    constructor
    · have h1 : lv.globalToLocalMap.lower_bound ≤ g := by
        rw [hlow]
        exact le_trans (intervalsWF_first_le hwf j hj) hlo
      have h2 : g ≤ lv.globalToLocalMap.upper_bound := by
        rw [hup]
        have := intervalsWF_le_last hwf j hj
        omega
      unfold section_vector
      rw [if_pos ⟨h2, h1⟩]
    · rw [List.getD_eq_get _ _ hj] at hlo hhi
      have hscan := scanIntervals_found g lv.globalToLocalMap.intervals 0 j hj
        hwf hlo hhi
      rw [zero_add] at hscan
      refine ⟨_, lv, offset_vector_of_scan hscan, ?_, ?_⟩
      · have h1 := sumBefore_nonneg hwf j
        omega
      · have h2 := sumBefore_succ_le_total hwf j hj
        omega

theorem claim_C4_offset_in_bounds_witness :
    (((0 : ℤ) ≤ 2 ∧ (2 : ℤ) < (⟨4, 4⟩ : Dense_Layout_Vector).count) ∧
      dense_section_vector ⟨4, 4⟩ 2 = 0 ∧
      dense_offset_vector ⟨4, 4⟩ 2 = some 2 ∧ (0 : ℤ) ≤ 2 ∧
      (2 : ℤ) < (⟨4, 4⟩ : Dense_Layout_Vector).count) ∧
    section_vector lvExample 3 = 0 ∧
    (∃ (off : ℤ) (lv' : Laik_Layout_Vector),
      offset_vector lvExample 3 = some (off, lv') ∧
        0 ≤ off ∧ off < lvExample.count) :=
  ⟨⟨⟨by decide, by decide⟩,
      claim_C4_offset_in_bounds.1 ⟨4, 4⟩ 2 (by decide) (by decide)⟩,
    claim_C4_offset_in_bounds.2 lvExample 3 0 (by decide) (by decide)
      (by decide) (by decide) (by decide) (by decide) (by decide) (by decide)⟩

theorem offSeq_length {σ : Type} (step : σ → ℤ → ℤ × σ) :
    ∀ (n : ℕ) (s : σ) (a : ℤ), (offSeq step s a n).length = n := by
  intro n
  induction n with
  | zero => intro s a; rfl
  | succ n ih => intro s a; simp [offSeq, ih]

theorem unpack_vector_model_notmem {σ α : Type} (step : σ → ℤ → ℤ × σ) :
    ∀ (buf : List α) (s : σ) (a : ℤ) (dst : ℤ → α) (x : ℤ),
      x ∉ offSeq step s a buf.length →
      unpack_vector_model step s a buf dst x = dst x := by
  intro buf
  induction buf with
  | nil => intro s a dst x _; rfl
  | cons v vs ih =>
    intro s a dst x hx
    have hx0 : x ≠ (step s a).1 := by
      intro h; exact hx (by simp [offSeq, h])
    have hx1 : x ∉ offSeq step (step s a).2 (a + 1) vs.length := by
      intro h; exact hx (by simp [offSeq, h])
    simp only [unpack_vector_model]
    rw [ih _ _ _ _ hx1]
    simp [hx0]

theorem unpack_of_pack {σ α : Type} (step : σ → ℤ → ℤ × σ) :
    ∀ (n : ℕ) (s : σ) (a : ℤ) (src dst : ℤ → α),
      ∀ o ∈ offSeq step s a n,
        unpack_vector_model step s a ((offSeq step s a n).map src) dst o =
          src o := by
  intro n
  induction n with
  | zero => intro s a src dst o ho; cases ho
  | succ n ih =>
    intro s a src dst o ho
    simp only [offSeq, List.map_cons] at ho ⊢
    simp only [unpack_vector_model]
    by_cases hmem : o ∈ offSeq step (step s a).2 (a + 1) n
    · exact ih _ _ src _ o hmem
    · have ho0 : o = (step s a).1 := by
        rcases List.mem_cons.mp ho with h | h
        · exact h
        · exact absurd h hmem
      have hlen : ((offSeq step (step s a).2 (a + 1) n).map src).length = n := by
        simp [offSeq_length]
      rw [unpack_vector_model_notmem step _ _ _ _ o (by rw [hlen]; exact hmem)]
      simp [ho0]

/-- C9: packing a 1-d range through a layout's offset walk into a
sufficiently large buffer and unpacking that buffer through the same walk
(same range, same layout state) into a disjoint destination reproduces the
source at every index of the range: the destination buffer agrees with the
source buffer at the slot of each walked index.  Stated for an arbitrary
(possibly stateful) offset step — covering the sparse layout's
`sparseStep` — and specialised to the dense layout, where the slot of index
`g` is `g` itself. -/
theorem claim_C9_pack_unpack_roundtrip :
    (∀ (σ α : Type) (step : σ → ℤ → ℤ × σ) (n cap : ℕ) (s : σ) (a : ℤ)
        (src dst : ℤ → α),
        n ≤ cap →
        ∀ o ∈ offSeq step s a n,
          unpack_vector_model step s a
            (pack_vector_model step src s a n cap) dst o = src o) ∧
    (∀ (α : Type) (n cap : ℕ) (a : ℤ) (src dst : ℤ → α),
        n ≤ cap →
        ∀ g : ℤ, a ≤ g → g < a + n →
          unpack_vector_model denseStep () a
            (pack_vector_model denseStep src () a n cap) dst g = src g) ∧
    (∀ (α : Type) (lv : Laik_Layout_Vector) (n cap : ℕ) (a : ℤ)
        (src dst : ℤ → α),
        n ≤ cap →
        ∀ o ∈ offSeq sparseStep lv a n,
          unpack_vector_model sparseStep lv a
            (pack_vector_model sparseStep src lv a n cap) dst o = src o) := by
  have hmain : ∀ (σ α : Type) (step : σ → ℤ → ℤ × σ) (n cap : ℕ) (s : σ)
      (a : ℤ) (src dst : ℤ → α), n ≤ cap →
      ∀ o ∈ offSeq step s a n,
        unpack_vector_model step s a
          (pack_vector_model step src s a n cap) dst o = src o := by
    intro σ α step n cap s a src dst hcap o ho
    have hfull : pack_vector_model step src s a n cap =
        (offSeq step s a n).map src := by
      unfold pack_vector_model
      rw [List.take_of_length_le (by rw [offSeq_length]; exact hcap)]
    rw [hfull]
    exact unpack_of_pack step n s a src dst o ho
  have hdenseMem : ∀ (n : ℕ) (a : ℤ) (g : ℤ),
      a ≤ g → g < a + n → g ∈ offSeq denseStep () a n := by
    intro n
    induction n with
    | zero => intro a g h1 h2; omega
    | succ n ih =>
      intro a g h1 h2
      simp only [offSeq, denseStep, List.mem_cons]
      by_cases hg : g = a
      · exact Or.inl hg
      · exact Or.inr (ih (a + 1) g (by omega) (by omega))
  refine ⟨hmain, ?_, ?_⟩
  · intro α n cap a src dst hcap g h1 h2
    exact hmain Unit α denseStep n cap () a src dst hcap g
      (hdenseMem n a g h1 h2)
  · intro α lv n cap a src dst hcap o ho
    exact hmain Laik_Layout_Vector α sparseStep n cap lv a src dst hcap o ho

theorem claim_C9_pack_unpack_roundtrip_witness :
    ((3 : ℕ) ≤ 3 ∧ (0 : ℤ) ≤ 1 ∧ (1 : ℤ) < 0 + (3 : ℕ)) ∧
    unpack_vector_model denseStep () 0
      (pack_vector_model denseStep (fun x : ℤ => x * x) () 0 3 3)
      (fun _ => 0) 1 = (fun x : ℤ => x * x) 1 :=
  ⟨⟨by decide, by decide, by decide⟩,
    claim_C9_pack_unpack_roundtrip.2.1 ℤ 3 3 0 (fun x : ℤ => x * x)
      (fun _ => 0) (by decide) 1 (by decide) (by decide)⟩

theorem one_le_ratioNk {N k : ℕ} (hk : 1 ≤ k) (hkN : k ≤ N) :
    (1 : ℚ) ≤ (N : ℚ) / (k : ℚ) := by
  rw [le_div_iff (by exact_mod_cast hk)]
  simpa using (by exact_mod_cast hkN : (k : ℚ) ≤ (N : ℚ))

theorem blockBnd_zero (N k : ℕ) : blockBnd N k 0 = 0 := by
  unfold blockBnd
  rw [Int.ceil_eq_iff]
  push_cast
  norm_num

theorem blockBnd_k {N k : ℕ} (hk : 1 ≤ k) : blockBnd N k k = N := by
  unfold blockBnd
  have hk0 : (k : ℚ) ≠ 0 := Nat.cast_ne_zero.mpr (by omega)
  have h1 : (k : ℚ) * ((N : ℚ) / (k : ℚ)) = (N : ℚ) := by
    field_simp
  rw [h1]
  have h2 : (N : ℚ) - 1 / 2 = -(1 / 2 : ℚ) + (N : ℤ) := by push_cast; ring
  rw [h2, Int.ceil_add_int]
  norm_num

theorem blockBnd_le_ceil (N k t : ℕ) :
    ((t : ℚ) * ((N : ℚ) / (k : ℚ)) - 1 / 2) ≤ (blockBnd N k t : ℚ) :=
  Int.le_ceil _

theorem blockBnd_lt_half (N k t : ℕ) :
    (blockBnd N k t : ℚ) < (t : ℚ) * ((N : ℚ) / (k : ℚ)) + 1 / 2 := by
  have := Int.ceil_lt_add_one ((t : ℚ) * ((N : ℚ) / (k : ℚ)) - 1 / 2)
  unfold blockBnd
  linarith

theorem blockBnd_step_floor {N k : ℕ} (t : ℕ) :
    blockBnd N k t + ⌊(N : ℚ) / (k : ℚ)⌋ ≤ blockBnd N k (t + 1) := by
  unfold blockBnd
  have h1 : ((t : ℚ) * ((N : ℚ) / (k : ℚ)) - 1 / 2) +
      (⌊(N : ℚ) / (k : ℚ)⌋ : ℚ) ≤
      ((t + 1 : ℕ) : ℚ) * ((N : ℚ) / (k : ℚ)) - 1 / 2 := by
    have := Int.floor_le ((N : ℚ) / (k : ℚ))
    push_cast
    linarith
  calc ⌈(t : ℚ) * ((N : ℚ) / (k : ℚ)) - 1 / 2⌉ + ⌊(N : ℚ) / (k : ℚ)⌋
      = ⌈((t : ℚ) * ((N : ℚ) / (k : ℚ)) - 1 / 2) +
          (⌊(N : ℚ) / (k : ℚ)⌋ : ℚ)⌉ := by rw [Int.ceil_add_int]
    _ ≤ _ := Int.ceil_mono h1

theorem blockBnd_step_upper {N k : ℕ} (t : ℕ) :
    blockBnd N k (t + 1) ≤ blockBnd N k t + ⌊(N : ℚ) / (k : ℚ)⌋ + 1 := by
  unfold blockBnd
  have h1 : ((t + 1 : ℕ) : ℚ) * ((N : ℚ) / (k : ℚ)) - 1 / 2 ≤
      ((t : ℚ) * ((N : ℚ) / (k : ℚ)) - 1 / 2) +
        ((⌊(N : ℚ) / (k : ℚ)⌋ + 1 : ℤ) : ℚ) := by
    have := Int.lt_floor_add_one ((N : ℚ) / (k : ℚ))
    push_cast
    linarith
  calc ⌈((t + 1 : ℕ) : ℚ) * ((N : ℚ) / (k : ℚ)) - 1 / 2⌉
      ≤ ⌈((t : ℚ) * ((N : ℚ) / (k : ℚ)) - 1 / 2) +
          ((⌊(N : ℚ) / (k : ℚ)⌋ + 1 : ℤ) : ℚ)⌉ := Int.ceil_mono h1
    _ = _ := by rw [Int.ceil_add_int]; ring

theorem one_le_floor_ratioNk {N k : ℕ} (hk : 1 ≤ k) (hkN : k ≤ N) :
    1 ≤ ⌊(N : ℚ) / (k : ℚ)⌋ := by
  rw [Int.le_floor]
  exact_mod_cast one_le_ratioNk hk hkN

theorem blockBnd_step_one {N k : ℕ} (hk : 1 ≤ k) (hkN : k ≤ N) (t : ℕ) :
    blockBnd N k t + 1 ≤ blockBnd N k (t + 1) := by
  have h1 := blockBnd_step_floor (N := N) (k := k) t
  have h2 := one_le_floor_ratioNk hk hkN
  omega

theorem blockBnd_mono {N k : ℕ} :
    ∀ {t t' : ℕ}, t ≤ t' → blockBnd N k t ≤ blockBnd N k t' := by
  intro t t' h
  unfold blockBnd
  apply Int.ceil_mono
  have hp : (0 : ℚ) ≤ (N : ℚ) / (k : ℚ) := by positivity
  have ht : (t : ℚ) ≤ (t' : ℚ) := by exact_mod_cast h
  nlinarith

theorem blockBnd_strict_mono {N k : ℕ} (hk : 1 ≤ k) (hkN : k ≤ N)
    {t t' : ℕ} (h : t < t') : blockBnd N k t < blockBnd N k t' := by
  have h1 := blockBnd_step_one hk hkN t
  have h2 := blockBnd_mono (N := N) (k := k) (show t + 1 ≤ t' from h)
  omega

theorem blockBnd_km1_lt {N k : ℕ} (hk : 1 ≤ k) (hkN : k ≤ N) :
    blockBnd N k (k - 1) < (N : ℤ) := by
  have h1 := blockBnd_strict_mono hk hkN (show k - 1 < k by omega)
  rw [blockBnd_k hk] at h1
  exact h1

theorem blockInit_length (N k t : ℕ) : (blockInit N k t).length = t := by
  simp [blockInit]

theorem blockInit_succ (N k t : ℕ) :
    blockInit N k (t + 1) =
      blockInit N k t ++ [(t, blockBnd N k t, blockBnd N k (t + 1))] := by
  simp [blockInit, List.range_succ]

theorem blockWhile_unit_noFire (p tw : ℚ) (k i fuel : ℕ) (st : BlockState)
    (h : ¬ p * 1 ≤ st.w) :
    blockWhile p none k 1 tw i (fuel + 1) st = (st, false) := by
  simp only [blockWhile, taskFactor]
  rw [if_neg h]

theorem blockWhile_unit_fire_mid (p tw : ℚ) (k i fuel : ℕ) (st : BlockState)
    (h1 : p * 1 ≤ st.w)
    (h3 : ¬ p * 1 ≤ st.w - p * 1)
    (h4 : st.task + 1 ≠ k) :
    blockWhile p none k 1 tw i (fuel + 2) st =
      ({ w := st.w - p * 1,
         task := st.task + 1,
         cycle := st.cycle,
         sliceFrom := (i : ℤ),
         acc := if st.sliceFrom < (i : ℤ) then
             st.acc ++ [(st.task, st.sliceFrom, (i : ℤ))] else st.acc },
        false) := by
  have h2 : ¬ (st.task + 1 = k ∧ st.cycle + 1 = 1) := by
    intro hc; exact h4 hc.1
  show blockWhile p none k 1 tw i ((fuel + 1) + 1) st = _
  simp only [blockWhile, taskFactor]
  rw [if_pos h1, if_neg h2]
  simp only [if_neg h4]
  rw [if_neg h3]

theorem blockFor_unit_run {N k : ℕ} (hk : 2 ≤ k) (hkN : k ≤ N) :
    ∀ (n i t : ℕ), i + n = N → t + 2 ≤ k →
      blockBnd N k t ≤ (i : ℤ) → (i : ℤ) ≤ blockBnd N k (t + 1) →
      blockFor ((N : ℚ) / (k : ℚ)) none none k 1 (k : ℚ) (List.range' i n)
        { w := (i : ℚ) - 1 / 2 - (t : ℚ) * ((N : ℚ) / (k : ℚ)),
          task := t, cycle := 0, sliceFrom := blockBnd N k t,
          acc := blockInit N k t } =
      { w := (blockBnd N k (k - 1) : ℚ) + 1 / 2 -
            ((k - 1 : ℕ) : ℚ) * ((N : ℚ) / (k : ℚ)),
        task := k - 1, cycle := 0, sliceFrom := blockBnd N k (k - 1),
        acc := blockInit N k (k - 1) } := by
  intro n
  induction n with
  | zero =>
    intro i t hiN ht hb1 hb2
    exfalso
    have h1 : blockBnd N k (t + 1) ≤ blockBnd N k (k - 1) :=
      blockBnd_mono (by omega)
    have h2 := blockBnd_km1_lt (by omega) hkN
    omega
  | succ n ih =>
    intro i t hiN ht hb1 hb2
    have hp1 : (1 : ℚ) ≤ (N : ℚ) / (k : ℚ) := one_le_ratioNk (by omega) hkN
    rw [List.range'_succ]
    simp only [blockFor, idxWeight]
    rcases eq_or_lt_of_le hb2 with hEq | hLt
    · -- fire: i = blockBnd N k (t+1)
      have hiq : (i : ℚ) = (blockBnd N k (t + 1) : ℚ) := by exact_mod_cast hEq
      have hhalf1 := blockBnd_le_ceil N k (t + 1)
      have hhalf2 := blockBnd_lt_half N k (t + 1)
      have hfire : ((N : ℚ) / (k : ℚ)) * 1 ≤
          (i : ℚ) - 1 / 2 - (t : ℚ) * ((N : ℚ) / (k : ℚ)) + 1 := by
        rw [hiq]
        push_cast at hhalf1 ⊢
        linarith
      have hsecond : ¬ ((N : ℚ) / (k : ℚ)) * 1 ≤
          ((i : ℚ) - 1 / 2 - (t : ℚ) * ((N : ℚ) / (k : ℚ)) + 1) -
            ((N : ℚ) / (k : ℚ)) * 1 := by
        rw [hiq]
        push_cast at hhalf2 ⊢
        linarith
      have htne : t + 1 ≠ k := by omega
      rw [blockWhile_unit_fire_mid ((N : ℚ) / (k : ℚ)) (k : ℚ) k i (k * 1)
        { w := (i : ℚ) - 1 / 2 - (t : ℚ) * ((N : ℚ) / (k : ℚ)) + 1,
          task := t, cycle := 0, sliceFrom := blockBnd N k t,
          acc := blockInit N k t }
        hfire hsecond htne]
      have hfromlt : blockBnd N k t < (i : ℤ) := by
        have := blockBnd_step_one (by omega : 1 ≤ k) hkN t
        omega
      simp only [if_pos hfromlt, Bool.false_eq_true, if_false]
      by_cases hkcase : t + 2 = k
      · -- the advance reached the last task: the outer loop breaks
        rw [if_pos (show t + 1 + 1 = k ∧ True from ⟨by omega, trivial⟩)]
        have hk1t : k - 1 = t + 1 := by omega
        rw [hk1t]
        simp only [BlockState.mk.injEq]
        refine ⟨?_, trivial, trivial, hEq, ?_⟩
        · rw [hiq]; push_cast; ring
        · rw [blockInit_succ, hEq]
      · -- keep iterating with task t+1
        rw [if_neg (show ¬ (t + 1 + 1 = k ∧ True) from
          fun hc => absurd hc.1 (by omega))]
        have hrec :
            ({ w := (i : ℚ) - 1 / 2 - (t : ℚ) * ((N : ℚ) / (k : ℚ)) + 1 -
                  ((N : ℚ) / (k : ℚ)) * 1,
               task := t + 1, cycle := 0, sliceFrom := (i : ℤ),
               acc := blockInit N k t ++
                 [(t, blockBnd N k t, (i : ℤ))] } : BlockState) =
            { w := ((i + 1 : ℕ) : ℚ) - 1 / 2 -
                  ((t + 1 : ℕ) : ℚ) * ((N : ℚ) / (k : ℚ)),
              task := t + 1, cycle := 0, sliceFrom := blockBnd N k (t + 1),
              acc := blockInit N k (t + 1) } := by
          simp only [BlockState.mk.injEq]
          refine ⟨?_, trivial, trivial, hEq, ?_⟩
          · push_cast; ring
          · rw [blockInit_succ, hEq]
        rw [hrec]
        have hnext : ((i + 1 : ℕ) : ℤ) ≤ blockBnd N k (t + 1 + 1) := by
          have := blockBnd_step_one (by omega : 1 ≤ k) hkN (t + 1)
          omega
        exact ih (i + 1) (t + 1) (by omega) (by omega) (by omega) hnext
    · -- no fire: i < blockBnd N k (t+1)
      have hlt2 := blockBnd_lt_half N k (t + 1)
      have hnofire : ¬ ((N : ℚ) / (k : ℚ)) * 1 ≤
          (i : ℚ) - 1 / 2 - (t : ℚ) * ((N : ℚ) / (k : ℚ)) + 1 := by
        have hiZ : (i : ℚ) ≤ (blockBnd N k (t + 1) : ℚ) - 1 := by
          have h : (i : ℤ) ≤ blockBnd N k (t + 1) - 1 := by omega
          exact_mod_cast h
        push_cast at hlt2 ⊢
        linarith
      have hfuel : k * 1 + 2 = (k * 1 + 1) + 1 := rfl
      rw [hfuel, blockWhile_unit_noFire ((N : ℚ) / (k : ℚ)) (k : ℚ) k i
        (k * 1 + 1)
        { w := (i : ℚ) - 1 / 2 - (t : ℚ) * ((N : ℚ) / (k : ℚ)) + 1,
          task := t, cycle := 0, sliceFrom := blockBnd N k t,
          acc := blockInit N k t }
        hnofire]
      simp only [Bool.false_eq_true, if_false]
      rw [if_neg (show ¬ (t + 1 = k ∧ True) from
        fun hc => absurd hc.1 (by omega))]
      have hrec :
          ({ w := (i : ℚ) - 1 / 2 - (t : ℚ) * ((N : ℚ) / (k : ℚ)) + 1,
             task := t, cycle := 0, sliceFrom := blockBnd N k t,
             acc := blockInit N k t } : BlockState) =
          { w := ((i + 1 : ℕ) : ℚ) - 1 / 2 -
                (t : ℚ) * ((N : ℚ) / (k : ℚ)),
            task := t, cycle := 0, sliceFrom := blockBnd N k t,
            acc := blockInit N k t } := by
        simp only [BlockState.mk.injEq]
        refine ⟨?_, trivial, trivial, trivial, trivial⟩
        push_cast; ring
      rw [hrec]
      exact ih (i + 1) t (by omega) ht (by omega) (by omega)

theorem runBlock_unit_eq {N k : ℕ} (hk : 1 ≤ k) (hkN : k ≤ N) :
    runBlockPartitioner N k 1 none none = blockInit N k k := by
  have hbi : blockInit N k k =
      blockInit N k (k - 1) ++
        [(k - 1, blockBnd N k (k - 1), blockBnd N k k)] := by
    have h := blockInit_succ N k (k - 1)
    rwa [show k - 1 + 1 = k from by omega] at h
  rw [hbi, blockBnd_k hk]
  rcases Nat.lt_or_ge 1 k with hk2 | hk1
  · -- k ≥ 2: apply the loop-run lemma from the initial state
    simp only [runBlockPartitioner, Nat.cast_one, div_one]
    rw [List.range_eq_range']
    have hst0 :
        ({ w := -(1 / 2 : ℚ), task := 0, cycle := 0, sliceFrom := 0,
           acc := [] } : BlockState) =
        { w := ((0 : ℕ) : ℚ) - 1 / 2 - ((0 : ℕ) : ℚ) * ((N : ℚ) / (k : ℚ)),
          task := 0, cycle := 0, sliceFrom := blockBnd N k 0,
          acc := blockInit N k 0 } := by
      simp only [BlockState.mk.injEq]
      refine ⟨by push_cast; ring, trivial, trivial,
        (blockBnd_zero N k).symm, by simp [blockInit]⟩
    rw [hst0]
    have hrange : List.range' 0 N = List.range' (0 : ℕ) N := rfl
    have hb0le : blockBnd N k 0 ≤ ((0 : ℕ) : ℤ) := by
      rw [blockBnd_zero]; exact le_refl _
    have hle1 : ((0 : ℕ) : ℤ) ≤ blockBnd N k (0 + 1) := by
      have h1 := blockBnd_step_one hk hkN 0
      have h0 := blockBnd_zero N k
      omega
    rw [blockFor_unit_run (by omega) hkN N 0 0 (by omega) (by omega)
      hb0le hle1]
  · -- k = 1: the outer loop breaks at the very first index
    have hk1' : k = 1 := by omega
    subst hk1'
    obtain ⟨m, rfl⟩ : ∃ m, N = m + 1 := ⟨N - 1, by omega⟩
    simp only [runBlockPartitioner, Nat.cast_one, div_one]
    rw [List.range_eq_range', List.range'_succ]
    simp only [blockFor, idxWeight]
    have hnofire : ¬ ((m + 1 : ℕ) : ℚ) * 1 ≤ -(1 / 2 : ℚ) + 1 := by
      push_cast
      intro hc
      nlinarith [Nat.cast_nonneg (α := ℚ) m]
    have hfuel : 1 * 1 + 2 = (1 * 1 + 1) + 1 := rfl
    rw [hfuel, blockWhile_unit_noFire ((m + 1 : ℕ) : ℚ) (1 : ℚ) 1 0
      (1 * 1 + 1)
      { w := -(1 / 2 : ℚ) + 1, task := 0, cycle := 0, sliceFrom := 0,
        acc := [] }
      hnofire]
    simp only [Bool.false_eq_true, if_false]
    simp [blockInit, blockBnd_zero]

theorem blockInit_getD (N k t j : ℕ) (hj : j < t) :
    (blockInit N k t).getD j (0, 0, 0) =
      (j, blockBnd N k j, blockBnd N k (j + 1)) := by
  have hl : j < (blockInit N k t).length := by
    rw [blockInit_length]; exact hj
  rw [List.getD_eq_get _ _ hl]
  simp [blockInit]

theorem exists_segment (bnd : ℕ → ℤ) (g : ℤ) :
    ∀ m : ℕ, bnd 0 ≤ g → g < bnd m →
      ∃ j, j < m ∧ bnd j ≤ g ∧ g < bnd (j + 1) := by
  intro m
  induction m with
  | zero => intro h1 h2; exact absurd h2 (not_lt.mpr h1)
  | succ m ih =>
    intro h1 h2
    by_cases hm : bnd m ≤ g
    · exact ⟨m, Nat.lt_succ_self m, hm, h2⟩
    · obtain ⟨j, hj, hx⟩ := ih h1 (not_le.mp hm)
      exact ⟨j, by omega, hx⟩

/-- C5: for the block partitioner with unit index and task weights and one
cycle, over a space of size `N` and a group of `k ≤ N` tasks, exactly `k`
slices are emitted; they are pairwise disjoint, exactly cover `[0, N)`, and
any two slice lengths differ by at most 1.  For `k = 4`, `N = 10` the emitted
slices are `[0,2), [2,5), [5,7), [7,10)` — lengths `2,3,2,3`, a permutation
of `{3,2,3,2}`.  (`double` arithmetic is modelled as exact rationals; for
`N = 10, k = 4` every intermediate value is a half-integer, exactly
representable in binary64.) -/
theorem claim_C5_block_unit :
    (∀ N k : ℕ, 1 ≤ k → k ≤ N →
      (runBlockPartitioner N k 1 none none).length = k ∧
      (∀ j, j < k →
        ((runBlockPartitioner N k 1 none none).getD j (0, 0, 0)).2.1 <
          ((runBlockPartitioner N k 1 none none).getD j (0, 0, 0)).2.2) ∧
      (∀ j1 j2, j1 < j2 → j2 < k →
        ((runBlockPartitioner N k 1 none none).getD j1 (0, 0, 0)).2.2 ≤
          ((runBlockPartitioner N k 1 none none).getD j2 (0, 0, 0)).2.1) ∧
      (∀ g : ℤ,
        (∃ j, j < k ∧
          ((runBlockPartitioner N k 1 none none).getD j (0, 0, 0)).2.1 ≤ g ∧
          g < ((runBlockPartitioner N k 1 none none).getD j (0, 0, 0)).2.2) ↔
        0 ≤ g ∧ g < (N : ℤ)) ∧
      (∀ j1 j2, j1 < k → j2 < k →
        ((runBlockPartitioner N k 1 none none).getD j1 (0, 0, 0)).2.2 -
            ((runBlockPartitioner N k 1 none none).getD j1 (0, 0, 0)).2.1 ≤
          ((runBlockPartitioner N k 1 none none).getD j2 (0, 0, 0)).2.2 -
            ((runBlockPartitioner N k 1 none none).getD j2 (0, 0, 0)).2.1 +
            1)) ∧
    runBlockPartitioner 10 4 1 none none =
      [(0, 0, 2), (1, 2, 5), (2, 5, 7), (3, 7, 10)] ∧
    ((runBlockPartitioner 10 4 1 none none).map
        (fun s => s.2.2 - s.2.1)).Perm [3, 2, 3, 2] := by
  have heval : runBlockPartitioner 10 4 1 none none =
      [(0, 0, 2), (1, 2, 5), (2, 5, 7), (3, 7, 10)] := by
    norm_num [runBlockPartitioner, blockFor, blockWhile, taskFactor,
      idxWeight, List.range_succ]
  refine ⟨?_, heval, ?_⟩
  · intro N k hk hkN
    rw [runBlock_unit_eq hk hkN]
    refine ⟨blockInit_length N k k, ?_, ?_, ?_, ?_⟩
    · intro j hj
      rw [blockInit_getD N k k j hj]
      exact blockBnd_strict_mono hk hkN (Nat.lt_succ_self j)
    · intro j1 j2 h12 hj2
      rw [blockInit_getD N k k j1 (by omega), blockInit_getD N k k j2 hj2]
      exact blockBnd_mono (by omega)
    · intro g
      constructor
      · rintro ⟨j, hj, h1, h2⟩
        rw [blockInit_getD N k k j hj] at h1 h2
        have hz := blockBnd_zero N k
        have hmono0 : blockBnd N k 0 ≤ blockBnd N k j :=
          blockBnd_mono (by omega)
        have hmonok : blockBnd N k (j + 1) ≤ blockBnd N k k :=
          blockBnd_mono (by omega)
        have hklast := blockBnd_k (N := N) hk
        simp only at h1 h2
        constructor
        · omega
        · omega
      · rintro ⟨hg0, hgN⟩
        obtain ⟨j, hj, h1, h2⟩ := exists_segment (blockBnd N k) g k
          (by rw [blockBnd_zero]; exact hg0)
          (by rw [blockBnd_k hk]; exact hgN)
        refine ⟨j, hj, ?_⟩
        rw [blockInit_getD N k k j hj]
        exact ⟨h1, h2⟩
    · intro j1 j2 hj1 hj2
      rw [blockInit_getD N k k j1 hj1, blockInit_getD N k k j2 hj2]
      have l1 := blockBnd_step_upper (N := N) (k := k) j1
      have l2 := blockBnd_step_floor (N := N) (k := k) j2
      simp only
      omega
  · rw [heval]
    show ([2, 3, 2, 3] : List ℤ).Perm [3, 2, 3, 2]
    exact ((List.Perm.swap 2 3 [2, 3]).symm).trans
      (((List.Perm.swap 2 3 []).symm.cons 2).cons 3)

theorem claim_C5_block_unit_witness :
    ((1 : ℕ) ≤ 4 ∧ (4 : ℕ) ≤ 10) ∧
    (runBlockPartitioner 10 4 1 none none).length = 4 :=
  ⟨⟨by decide, by decide⟩,
    (claim_C5_block_unit.1 10 4 (by decide) (by decide)).1⟩
